import Mathlib

/-!
# Verification of `bakker/checkpoint.py`

A shallow embedding of the checkpoint module of the `bakker` backup tool,
together with proofs of the specification claims about it.

The embedding models:
* the xxHash64 algorithm (the external `xxhash` library used by the code),
  including its streaming (`update`/`hexdigest`) interface;
* the tree node model (`TreeNode`, `DirectoryNode`, `FileNode`, `SymlinkNode`)
  with its builders and its `to_dict`/`from_dict` serialization contract;
* `Checkpoint` (construction-time name validation, `to_json`, `iter`) and
  `CheckpointMeta` (`to_string`/`from_string`).

Filesystem state is modelled by an inductive `FSEntry`; the `os.path`
predicates (`islink`, `isfile`, `isdir` — the latter two following symlinks)
become functions on it.
-/

set_option maxHeartbeats 1000000

namespace Bakker

/-! ## The xxHash64 algorithm (model of the external `xxhash` library)

All 64-bit machine arithmetic is carried out on `Nat` with explicit
reduction modulo `2^64`.  Bytes are `Nat`s below 256. -/

def U64 : Nat := 18446744073709551616

def PRIME1 : Nat := 11400714785074694791
def PRIME2 : Nat := 14029467366897019727
def PRIME3 : Nat := 1609587929392839161
def PRIME4 : Nat := 9650029242287828579
def PRIME5 : Nat := 2870177450012600261

def add64 (a b : Nat) : Nat := (a + b) % U64

def sub64 (a b : Nat) : Nat := (a % U64 + (U64 - b % U64)) % U64

def mul64 (a b : Nat) : Nat := (a * b) % U64

def rotl64 (x n : Nat) : Nat := ((x % U64) >>> (64 - n) + (x <<< n)) % U64

/-- Little-endian value of a byte list. -/
def readLE : List Nat → Nat
  | [] => 0
  | b :: rest => b % 256 + 256 * readLE rest

def xxhRound (acc lane : Nat) : Nat :=
  mul64 (rotl64 (add64 acc (mul64 lane PRIME2)) 31) PRIME1

def xxhMergeRound (acc v : Nat) : Nat :=
  add64 (mul64 (acc ^^^ xxhRound 0 v) PRIME1) PRIME4

/-- Consume 32-byte stripes, updating the four lane accumulators. -/
def xxhStripes : Nat → Nat → Nat → Nat → List Nat → Nat × Nat × Nat × Nat × List Nat
  | v1, v2, v3, v4,
    b0 :: b1 :: b2 :: b3 :: b4 :: b5 :: b6 :: b7 ::
    c0 :: c1 :: c2 :: c3 :: c4 :: c5 :: c6 :: c7 ::
    d0 :: d1 :: d2 :: d3 :: d4 :: d5 :: d6 :: d7 ::
    e0 :: e1 :: e2 :: e3 :: e4 :: e5 :: e6 :: e7 :: rest =>
      xxhStripes
        (xxhRound v1 (readLE [b0, b1, b2, b3, b4, b5, b6, b7]))
        (xxhRound v2 (readLE [c0, c1, c2, c3, c4, c5, c6, c7]))
        (xxhRound v3 (readLE [d0, d1, d2, d3, d4, d5, d6, d7]))
        (xxhRound v4 (readLE [e0, e1, e2, e3, e4, e5, e6, e7]))
        rest
  | v1, v2, v3, v4, bs => (v1, v2, v3, v4, bs)

/-- Consume 8-byte lanes of the tail. -/
def xxhTail8 : Nat → List Nat → Nat × List Nat
  | h, b0 :: b1 :: b2 :: b3 :: b4 :: b5 :: b6 :: b7 :: rest =>
      xxhTail8
        (add64 (mul64 (rotl64 (h ^^^ xxhRound 0 (readLE [b0, b1, b2, b3, b4, b5, b6, b7])) 27)
          PRIME1) PRIME4)
        rest
  | h, bs => (h, bs)

/-- Consume one 4-byte lane of the tail when at least four bytes remain. -/
def xxhTail4 : Nat → List Nat → Nat × List Nat
  | h, b0 :: b1 :: b2 :: b3 :: rest =>
      (add64 (mul64 (rotl64 (h ^^^ mul64 (readLE [b0, b1, b2, b3]) PRIME1) 23) PRIME2) PRIME3,
       rest)
  | h, bs => (h, bs)

/-- Consume the remaining single bytes of the tail. -/
def xxhTail1 (h : Nat) (bs : List Nat) : Nat :=
  bs.foldl (fun h b => mul64 (rotl64 (h ^^^ mul64 (b % 256) PRIME5) 11) PRIME1) h

def xxhAvalanche (h : Nat) : Nat :=
  let h1 := mul64 (h ^^^ (h >>> 33)) PRIME2
  let h2 := mul64 (h1 ^^^ (h1 >>> 29)) PRIME3
  h2 ^^^ (h2 >>> 32)

/-- xxHash64 of a byte sequence with an explicit seed. -/
def xxh64seed (seed : Nat) (input : List Nat) : Nat :=
  let pair :=
    if input.length ≥ 32 then
      let s := xxhStripes (add64 (add64 seed PRIME1) PRIME2) (add64 seed PRIME2) (seed % U64)
        (sub64 seed PRIME1) input
      let h := add64 (add64 (add64 (rotl64 s.1 1) (rotl64 s.2.1 7)) (rotl64 s.2.2.1 12))
        (rotl64 s.2.2.2.1 18)
      let h := xxhMergeRound h s.1
      let h := xxhMergeRound h s.2.1
      let h := xxhMergeRound h s.2.2.1
      let h := xxhMergeRound h s.2.2.2.1
      (h, s.2.2.2.2)
    else (add64 seed PRIME5, input)
  let h := add64 pair.1 input.length
  let p8 := xxhTail8 h pair.2
  let p4 := xxhTail4 p8.1 p8.2
  xxhAvalanche (xxhTail1 p4.1 p4.2)

/-- xxHash64 with the default seed 0, as `xxhash.xxh64()` uses. -/
def xxh64 (input : List Nat) : Nat := xxh64seed 0 input

def hexChar (n : Nat) : Char :=
  if n < 10 then Char.ofNat (48 + n) else Char.ofNat (87 + n)

/-- Fixed-width lowercase hexadecimal rendering (most significant digit first). -/
def toHexFixed : Nat → Nat → List Char
  | 0, _ => []
  | w + 1, v => toHexFixed w (v / 16) ++ [hexChar (v % 16)]

/-- The 16-character hex digest string of xxh64, as `hexdigest()` returns it. -/
def xxh64Hex (input : List Nat) : String := ⟨toHexFixed 16 (xxh64 input)⟩

/-- UTF-8 encoding of one character (model of Python `str.encode`). -/
def utf8Char (c : Char) : List Nat :=
  let n := c.toNat
  if n < 128 then [n]
  else if n < 2048 then [192 + n / 64, 128 + n % 64]
  else if n < 65536 then [224 + n / 4096, 128 + n / 64 % 64, 128 + n % 64]
  else [240 + n / 262144, 128 + n / 4096 % 64, 128 + n / 64 % 64, 128 + n % 64]

/-- UTF-8 bytes of a string: Python strings passed to `xxhash` update are
UTF-8 encoded. -/
def strBytes (s : String) : List Nat :=
  s.data.foldr (fun c acc => utf8Char c ++ acc) []

/-- The streaming hasher object returned by `xxhash.xxh64()`: `update` appends
bytes, `hexdigest` hashes everything accumulated so far.  (The library
guarantees the digest is that of the concatenation, independent of the
chunking into `update` calls; the spec relies on this.) -/
structure XxhState where
  data : List Nat
deriving Repr, DecidableEq

def XxhState.new : XxhState := ⟨[]⟩

def XxhState.update (m : XxhState) (bs : List Nat) : XxhState := ⟨m.data ++ bs⟩

def XxhState.updateStr (m : XxhState) (s : String) : XxhState := m.update (strBytes s)

def XxhState.hexdigest (m : XxhState) : String := xxh64Hex m.data

/-! ## The tree node model

`TreeNode` is the closed variant set {file, symlink, directory}; a
directory's `children` is a Python `dict` from child name to node,
modelled as an insertion-ordered association list with unique keys. -/

inductive TreeNode where
  | file (name checksum : String) (permissions : Nat)
  | symlink (name checksum : String) (permissions : Nat)
  | dir (name checksum : String) (permissions : Nat)
      (children : List (String × TreeNode))
deriving Repr

def TreeNode.name : TreeNode → String
  | .file n _ _ => n
  | .symlink n _ _ => n
  | .dir n _ _ _ => n

def TreeNode.checksum : TreeNode → String
  | .file _ c _ => c
  | .symlink _ c _ => c
  | .dir _ c _ _ => c

def TreeNode.permissions : TreeNode → Nat
  | .file _ _ p => p
  | .symlink _ _ p => p
  | .dir _ _ p _ => p

/-- Assignment `d[k] = v` on a Python dict: replace in place if the key is
present (keeping its position), else append at the end. -/
def dictInsert {α : Type} : List (String × α) → String → α → List (String × α)
  | [], k, v => [(k, v)]
  | (k', v') :: rest, k, v =>
      if k' = k then (k', v) :: rest else (k', v') :: dictInsert rest k v

/-- Lookup `d[k]` on a Python dict. -/
def dictGet {α : Type} : List (String × α) → String → Option α
  | [], _ => none
  | (k', v) :: rest, k => if k' = k then some v else dictGet rest k

/-! ## The filesystem model

`FSEntry` is the state of one filesystem entry as the `os` predicates see
it.  A symlink records its raw target string and what the target resolves
to (`os.path.isfile`/`os.path.isdir` follow symlinks); `other` stands for
device files, sockets, pipes, etc. -/

inductive TargetKind where
  | tfile
  | tdir
  | tnone
deriving Repr, DecidableEq

inductive FSEntry where
  | file (content : List Nat) (perms : Nat)
  | dir (perms : Nat) (listing : List (String × FSEntry))
  | symlink (target : String) (perms : Nat) (targetKind : TargetKind)
  | other
deriving Repr

/-- `os.path.islink`. -/
def FSEntry.islink : FSEntry → Bool
  | .symlink _ _ _ => true
  | _ => false

/-- `os.path.isfile`: true for regular files and for symlinks resolving to a
regular file. -/
def FSEntry.isfile : FSEntry → Bool
  | .file _ _ => true
  | .symlink _ _ .tfile => true
  | _ => false

/-- `os.path.isdir`: true for directories and for symlinks resolving to a
directory. -/
def FSEntry.isdir : FSEntry → Bool
  | .dir _ _ => true
  | .symlink _ _ .tdir => true
  | _ => false

/-! ## Node builders

`TreeNode.build_node` classifies by `islink` first, then `isfile`, then
`isdir`, and returns `None` (here `none`) for anything else.
`FileNode.build_node` hashes the content read in `BLOCKSIZE`-byte chunks;
`SymlinkNode.build_node` hashes the raw `os.readlink` target;
`DirectoryNode.build_node` filters children by
`os.path.isfile or os.path.isdir`, builds the kept ones into the children
dict, and hashes the child digests in ascending name order. -/

def BLOCKSIZE : Nat := 65536

/-- The read-hash loop of `FileNode.build_node`. -/
def hashChunks (m : XxhState) (bs : List Nat) : XxhState :=
  match bs with
  | [] => m
  | b :: rest => hashChunks (m.update ((b :: rest).take BLOCKSIZE)) ((b :: rest).drop BLOCKSIZE)
termination_by bs.length
decreasing_by
  simp [BLOCKSIZE]
  omega

def fileChecksum (content : List Nat) : String :=
  (hashChunks XxhState.new content).hexdigest

def symlinkChecksum (target : String) : String :=
  (XxhState.new.updateStr target).hexdigest

/-- `child_checksums` of `DirectoryNode.build_node`: the children's digests
in ascending lexicographic order of child name. -/
def childChecksums (children : List (String × TreeNode)) : List String :=
  (List.insertionSort (· ≤ ·) (children.map Prod.fst)).filterMap
    (fun n => (dictGet children n).map TreeNode.checksum)

def dirChecksum (children : List (String × TreeNode)) : String :=
  ((childChecksums children).foldl (fun m d => m.updateStr d) XxhState.new).hexdigest

mutual

/-- `TreeNode.build_node`. -/
def buildNode : FSEntry → String → Option TreeNode
  | .symlink target perms _, name => some (.symlink name (symlinkChecksum target) perms)
  | .file content perms, name => some (.file name (fileChecksum content) perms)
  | .dir perms listing, name => some (buildDir perms listing name)
  | .other, _ => none

/-- `DirectoryNode.build_node` (permissions and listing already read). -/
def buildDir (perms : Nat) (listing : List (String × FSEntry)) (name : String) : TreeNode :=
  let children := buildChildren listing []
  .dir name (dirChecksum children) perms children

/-- The child loop of `DirectoryNode.build_node`: entries that are neither
`isfile` nor `isdir` are skipped, the rest are built and assigned into the
children dict. -/
def buildChildren : List (String × FSEntry) → List (String × TreeNode) →
    List (String × TreeNode)
  | [], acc => acc
  | (cname, ce) :: rest, acc =>
      if ¬ ce.isfile ∧ ¬ ce.isdir then buildChildren rest acc
      else
        match buildNode ce cname with
        | some t => buildChildren rest (dictInsert acc cname t)
        | none => buildChildren rest acc

end

/-! ## Serialization: `to_dict` / `from_dict`

A serialized node is a dict with keys `name`, `checksum`, `permissions`,
`type`, and (for directories only) `children`. -/

inductive NodeDict where
  | mk (name checksum : String) (permissions : Nat) (type : String)
      (children : Option (List NodeDict))
deriving Repr

def NodeDict.name : NodeDict → String
  | .mk n _ _ _ _ => n

def NodeDict.checksum : NodeDict → String
  | .mk _ c _ _ _ => c

def NodeDict.permissions : NodeDict → Nat
  | .mk _ _ p _ _ => p

def NodeDict.type : NodeDict → String
  | .mk _ _ _ t _ => t

def NodeDict.children : NodeDict → Option (List NodeDict)
  | .mk _ _ _ _ cs => cs

mutual

/-- `to_dict` (per-variant, merged into one dispatch). -/
def toDict : TreeNode → NodeDict
  | .file n c p => .mk n c p "file" none
  | .symlink n c p => .mk n c p "symlink" none
  | .dir n c p children => .mk n c p "directory" (some (toDictChildren children))

/-- `[child.to_dict() for child in self.children.values()]`. -/
def toDictChildren : List (String × TreeNode) → List NodeDict
  | [] => []
  | (_, t) :: rest => toDict t :: toDictChildren rest

end

mutual

/-- `TreeNode.from_dict`: dispatch on the `type` discriminator; an
unrecognized tag raises `TypeError('Type ' + d['name'] + ' does not exist.')`. -/
def fromDict : NodeDict → Except String TreeNode
  | .mk name checksum permissions ty children =>
      if ty = "directory" then
        match children with
        | none => .error "KeyError: children"
        | some cs =>
            match fromDictChildren cs [] with
            | .ok ch => .ok (.dir name checksum permissions ch)
            | .error e => .error e
      else if ty = "file" then .ok (.file name checksum permissions)
      else if ty = "symlink" then .ok (.symlink name checksum permissions)
      else .error ("Type " ++ name ++ " does not exist.")

/-- The children dict comprehension of `DirectoryNode.from_dict`:
`{child['name']: TreeNode.from_dict(child) for child in d['children']}`. -/
def fromDictChildren : List NodeDict → List (String × TreeNode) →
    Except String (List (String × TreeNode))
  | [], acc => .ok acc
  | c :: rest, acc =>
      match fromDict c with
      | .ok t => fromDictChildren rest (dictInsert acc c.name t)
      | .error e => .error e

end

/-! ## Datetime

A timezone-naive Python `datetime` down to microseconds.  `isoformat`
renders `YYYY-MM-DDTHH:MM:SS` and appends `.ffffff` exactly when the
microsecond field is nonzero. -/

structure Datetime where
  year : Nat
  month : Nat
  day : Nat
  hour : Nat
  minute : Nat
  second : Nat
  microsecond : Nat
deriving Repr, DecidableEq

/-- The field ranges `datetime` enforces at construction. -/
def Datetime.valid (t : Datetime) : Prop :=
  1 ≤ t.year ∧ t.year ≤ 9999 ∧ 1 ≤ t.month ∧ t.month ≤ 12 ∧ 1 ≤ t.day ∧ t.day ≤ 31 ∧
    t.hour ≤ 23 ∧ t.minute ≤ 59 ∧ t.second ≤ 59 ∧ t.microsecond ≤ 999999

instance (t : Datetime) : Decidable t.valid := by
  unfold Datetime.valid
  infer_instance

def digit (n : Nat) : Char := Char.ofNat (48 + n % 10)

def pad2 (n : Nat) : List Char := [digit (n / 10), digit n]

def pad4 (n : Nat) : List Char :=
  [digit (n / 1000), digit (n / 100), digit (n / 10), digit n]

def pad6 (n : Nat) : List Char :=
  [digit (n / 100000), digit (n / 10000), digit (n / 1000), digit (n / 100),
   digit (n / 10), digit n]

def Datetime.isoformat (t : Datetime) : String :=
  ⟨pad4 t.year ++ '-' :: pad2 t.month ++ '-' :: pad2 t.day ++ 'T' :: pad2 t.hour ++
    ':' :: pad2 t.minute ++ ':' :: pad2 t.second ++
    (if t.microsecond = 0 then [] else '.' :: pad6 t.microsecond)⟩

def parseDigits (cs : List Char) : Option Nat :=
  if cs.all Char.isDigit then
    some (cs.foldl (fun a c => 10 * a + (c.toNat - 48)) 0)
  else none

/-- Modelled from the spec: the repository's `utils.datetime_from_iso_format`
helper (its source file is not part of the given sources) "converts an
ISO-8601 string (with or without microsecond precision) into a comparable
time value", accepting "both 19-character (second precision) and full
microsecond-precision forms". -/
def datetimeFromIsoFormat (s : String) : Option Datetime :=
  match s.data with
  | [y1, y2, y3, y4, '-', o1, o2, '-', d1, d2, 'T', h1, h2, ':', i1, i2, ':', s1, s2] =>
      match parseDigits [y1, y2, y3, y4], parseDigits [o1, o2], parseDigits [d1, d2],
          parseDigits [h1, h2], parseDigits [i1, i2], parseDigits [s1, s2] with
      | some y, some mo, some d, some h, some mi, some se => some ⟨y, mo, d, h, mi, se, 0⟩
      | _, _, _, _, _, _ => none
  | [y1, y2, y3, y4, '-', o1, o2, '-', d1, d2, 'T', h1, h2, ':', i1, i2, ':', s1, s2,
     '.', u1, u2, u3, u4, u5, u6] =>
      match parseDigits [y1, y2, y3, y4], parseDigits [o1, o2], parseDigits [d1, d2],
          parseDigits [h1, h2], parseDigits [i1, i2], parseDigits [s1, s2],
          parseDigits [u1, u2, u3, u4, u5, u6] with
      | some y, some mo, some d, some h, some mi, some se, some u =>
          some ⟨y, mo, d, h, mi, se, u⟩
      | _, _, _, _, _, _, _ => none
  | _ => none

/-! ## Checkpoint -/

/-- A character of the class `[a-zA-Z0-9_\-.]`. -/
def nameClassChar (c : Char) : Bool :=
  (('a' ≤ c && c ≤ 'z') || ('A' ≤ c && c ≤ 'Z') || ('0' ≤ c && c ≤ '9') ||
    c = '_' || c = '-' || c = '.')

/-- Python `re.match('^[a-zA-Z0-9_\-.]+$', s) is not None`: the pattern
matches the whole string, or — because `$` also matches just before a
newline that ends the string — everything up to a single trailing
newline. -/
def reMatchName (s : String) : Bool :=
  (!s.data.isEmpty && s.data.all nameClassChar) ||
    (!s.data.dropLast.isEmpty && s.data.dropLast.all nameClassChar &&
      s.data.getLast? == some '\n')

structure Checkpoint where
  root : TreeNode
  time : Datetime
  name : Option String
deriving Repr

/-- `Checkpoint.__init__` (with the capture time passed explicitly; the code
defaults it to `datetime.now()`): the `assert` on the name pattern makes
construction fail for a supplied non-matching name. -/
def Checkpoint.make (root : TreeNode) (time : Datetime) (name : Option String) :
    Option Checkpoint :=
  match name with
  | none => some ⟨root, time, none⟩
  | some n => if reMatchName n then some ⟨root, time, some n⟩ else none

/-! ## The JSON document of `to_json` -/

inductive Json where
  | str (s : String)
  | num (n : Nat)
  | null
  | arr (xs : List Json)
  | obj (fields : List (String × Json))
deriving Repr

mutual

/-- The JSON value a serialized node dict denotes (`json.dumps` renders it;
the `children` key is present only when the dict has one). -/
def dictJson : NodeDict → Json
  | .mk name checksum permissions ty children =>
      .obj ([("name", .str name), ("checksum", .str checksum),
        ("permissions", .num permissions)] ++
        (match children with
         | some cs => [("children", .arr (dictJsonList cs))]
         | none => []) ++
        [("type", .str ty)])

def dictJsonList : List NodeDict → List Json
  | [] => []
  | c :: rest => dictJson c :: dictJsonList rest

end

/-- `Checkpoint.to_json`: the document
`dict(root=self.root.to_dict(), time=self.time.isoformat(), name=self.name)`. -/
def Checkpoint.toJson (cp : Checkpoint) : Json :=
  .obj [("root", dictJson (toDict cp.root)),
        ("time", .str cp.time.isoformat),
        ("name", match cp.name with | some n => .str n | none => .null)]

def Json.getField : Json → String → Option Json
  | .obj fields, k => dictGet fields k
  | _, _ => none

/-! ## `Checkpoint.iter` -/

/-- `os.path.join` for the relative paths produced by `iter` (the left part
is `''` exactly for the root). -/
def pathJoin (p n : String) : String := if p = "" then n else p ++ "/" ++ n

/-- What one loop iteration pushes: the children of a directory node, each
appended in insertion order, so that in a head-is-top stack they sit in
reverse order. -/
def pushChildren : TreeNode → String → List (TreeNode × String)
  | .dir _ _ _ children, p => (children.map (fun c => (c.2, pathJoin p c.1))).reverse
  | _, _ => []

mutual

def nodeWeight : TreeNode → Nat
  | .file _ _ _ => 1
  | .symlink _ _ _ => 1
  | .dir _ _ _ children => 1 + childWeight children

def childWeight : List (String × TreeNode) → Nat
  | [] => 0
  | (_, t) :: rest => nodeWeight t + childWeight rest

end

def stackWeight : List (TreeNode × String) → Nat
  | [] => 0
  | (t, _) :: rest => nodeWeight t + stackWeight rest

/-- `Checkpoint.iter` unrolled: the explicit-stack loop, top of stack at the
head. -/
def iterGo : List (TreeNode × String) → List (TreeNode × String)
  | [] => []
  | (n, p) :: rest => (n, p) :: iterGo (pushChildren n p ++ rest)
termination_by stack => stackWeight stack
decreasing_by
  have happ : ∀ a b : List (TreeNode × String),
      stackWeight (a ++ b) = stackWeight a + stackWeight b := by
    intro a b
    induction a with
    | nil => simp [stackWeight]
    | cons x r2 ih =>
        obtain ⟨t, q⟩ := x
        simp [stackWeight, ih]
        omega
  have hlt : ∀ (t : TreeNode) (q : String),
      stackWeight (pushChildren t q) < nodeWeight t := by
    intro t q
    cases t with
    | file nm c pm =>
        simp [pushChildren, stackWeight, nodeWeight]
    | symlink nm c pm =>
        simp [pushChildren, stackWeight, nodeWeight]
    | dir nm c pm children =>
        simp only [pushChildren, nodeWeight]
        have h : ∀ l : List (String × TreeNode), ∀ q2 : String,
            stackWeight ((l.map (fun c => (c.2, pathJoin q2 c.1))).reverse) =
              childWeight l := by
          intro l q2
          induction l with
          | nil => simp [stackWeight, childWeight]
          | cons x r2 ih =>
              obtain ⟨cn, ct⟩ := x
              simp only [List.map_cons, List.reverse_cons]
              rw [happ]
              simp [stackWeight, childWeight, ih]
              omega
        rw [h children q]
        omega
  simp only [happ, stackWeight]
  exact Nat.add_lt_add_right (hlt _ _) _

def Checkpoint.iterList (cp : Checkpoint) : List (TreeNode × String) :=
  iterGo [(cp.root, "")]

/-! ## CheckpointMeta -/

structure CheckpointMeta where
  checksum : String
  time : Datetime
  name : Option String
deriving Repr, DecidableEq

def Checkpoint.meta (cp : Checkpoint) : CheckpointMeta :=
  ⟨cp.root.checksum, cp.time, cp.name⟩

/-- `CheckpointMeta.to_string`: checksum, `_`, the ISO time padded with the
literal `.000000` when it is exactly 19 characters long, and `_name` when
the name is truthy (present and nonempty). -/
def CheckpointMeta.toString (m : CheckpointMeta) : String :=
  let timestring := m.time.isoformat
  let timestring := if timestring.length = 19 then timestring ++ ".000000" else timestring
  m.checksum ++ "_" ++ timestring ++
    (match m.name with
     | some n => if n = "" then "" else "_" ++ n
     | none => "")

/-- Python `str.split(sep)` at the first occurrence only: `none` when the
separator does not occur. -/
def splitOnceChar (sep : Char) : List Char → Option (List Char × List Char)
  | [] => none
  | c :: rest =>
      if c = sep then some ([], rest)
      else
        match splitOnceChar sep rest with
        | some (a, b) => some (c :: a, b)
        | none => none

/-- `CheckpointMeta.from_string`: `string.split('_', 2)` splits on the first
two `_` only; a missing second segment is an `IndexError`, a failing time
parse an error, both modelled as `none`. -/
def CheckpointMeta.fromString (s : String) : Option CheckpointMeta :=
  match splitOnceChar '_' s.data with
  | none => none
  | some (seg0, rest) =>
      match splitOnceChar '_' rest with
      | none =>
          match datetimeFromIsoFormat ⟨rest⟩ with
          | some t => some ⟨⟨seg0⟩, t, none⟩
          | none => none
      | some (seg1, rest2) =>
          match datetimeFromIsoFormat ⟨seg1⟩ with
          | some t => some ⟨⟨seg0⟩, t, some ⟨rest2⟩⟩
          | none => none

/-! ## Auxiliary definitions used by the verification -/

/-- The filter of `DirectoryNode.build_node`: a child is kept iff
`os.path.isfile or os.path.isdir` holds for it. -/
def keepEntry (e : FSEntry) : Bool := e.isfile || e.isdir

/-- The children map a directory build produces from a listing with unique
names: the kept entries, built in listing order. -/
def buildKept (listing : List (String × FSEntry)) : List (String × TreeNode) :=
  (listing.filter (fun p => keepEntry p.2)).filterMap
    (fun p => (buildNode p.2 p.1).map (fun t => (p.1, t)))

def projChildren (ch : List (String × TreeNode)) : List (String × String) :=
  ch.map (fun p => (p.1, p.2.checksum))

/-- The children pairs in ascending lexicographic order of name. -/
def sortByName (ch : List (String × TreeNode)) : List (String × TreeNode) :=
  List.insertionSort (fun a b => a.1 ≤ b.1) ch

mutual

/-- An entry with all permission bits forgotten: two entries "differ only in
permission bits" exactly when their `stripPerms` images agree. -/
def stripPerms : FSEntry → FSEntry
  | .file c _ => .file c 0
  | .dir _ l => .dir 0 (stripPermsList l)
  | .symlink t _ k => .symlink t 0 k
  | .other => .other

def stripPermsList : List (String × FSEntry) → List (String × FSEntry)
  | [] => []
  | (n, e) :: rest => (n, stripPerms e) :: stripPermsList rest

end

def nodupKeys : List String → Bool
  | [] => true
  | k :: rest => !(rest.contains k) && nodupKeys rest

mutual

/-- Well-formedness every Python-constructed node enjoys: in each directory
the children dict has unique keys and stores each child under the child's
own `name`. -/
def wfNode : TreeNode → Bool
  | .file _ _ _ => true
  | .symlink _ _ _ => true
  | .dir _ _ _ children => nodupKeys (children.map Prod.fst) && wfChildren children

def wfChildren : List (String × TreeNode) → Bool
  | [] => true
  | (k, t) :: rest => (t.name == k) && wfNode t && wfChildren rest

end

mutual

/-- The depth-first, root-first traversal that visits the children of each
directory in **reverse** insertion order — the sequence the explicit-stack
loop of `Checkpoint.iter` actually produces. -/
def dfsRev : TreeNode → String → List (TreeNode × String)
  | .file n c p, q => [(.file n c p, q)]
  | .symlink n c p, q => [(.symlink n c p, q)]
  | .dir n c p children, q => (.dir n c p children, q) :: dfsRevChildren children q

def dfsRevChildren : List (String × TreeNode) → String → List (TreeNode × String)
  | [], _ => []
  | (cn, ct) :: rest, q => dfsRevChildren rest q ++ dfsRev ct (pathJoin q cn)

end

/-- The lowercase-hex alphabet of the `hexdigest` strings. -/
def isHexDigitChar (c : Char) : Bool := c.isDigit || ('a' ≤ c && c ≤ 'f')

/-- The character data of the microsecond-padded ISO time string. -/
def isoPaddedData (t : Datetime) : List Char :=
  pad4 t.year ++ '-' :: pad2 t.month ++ '-' :: pad2 t.day ++ 'T' :: pad2 t.hour ++
    ':' :: pad2 t.minute ++ ':' :: pad2 t.second ++ '.' :: pad6 t.microsecond

/-! ## Lemmas: the streaming hasher -/

theorem hashChunks_eq (m : XxhState) (bs : List Nat) : hashChunks m bs = ⟨m.data ++ bs⟩ := by
  induction m, bs using hashChunks.induct with
  | case1 m => simp [hashChunks]
  | case2 m b rest ih =>
      rw [hashChunks]
      rw [ih]
      simp [XxhState.update, List.append_assoc, List.take_append_drop]

theorem fileChecksum_eq (content : List Nat) : fileChecksum content = xxh64Hex content := by
  rw [fileChecksum, hashChunks_eq]
  simp [XxhState.new, XxhState.hexdigest]

theorem symlinkChecksum_eq (target : String) :
    symlinkChecksum target = xxh64Hex (strBytes target) := by
  simp [symlinkChecksum, XxhState.new, XxhState.updateStr, XxhState.update,
    XxhState.hexdigest]

theorem foldl_updateStr (l : List String) (m : XxhState) :
    (l.foldl (fun m d => m.updateStr d) m).data = m.data ++ (l.map strBytes).flatten := by
  induction l generalizing m with
  | nil => simp
  | cons d rest ih =>
      simp only [List.foldl_cons, List.map_cons, List.flatten_cons]
      rw [ih]
      simp [XxhState.updateStr, XxhState.update]

theorem dirChecksum_eq (children : List (String × TreeNode)) :
    dirChecksum children = xxh64Hex ((childChecksums children).map strBytes).flatten := by
  rw [dirChecksum, XxhState.hexdigest, foldl_updateStr]
  simp [XxhState.new]

/-! ## Lemmas: Python dicts as association lists -/

theorem dictInsert_fresh {α : Type} (d : List (String × α)) (k : String) (v : α)
    (h : k ∉ d.map Prod.fst) : dictInsert d k v = d ++ [(k, v)] := by
  induction d with
  | nil => simp [dictInsert]
  | cons x rest ih =>
      obtain ⟨k', v'⟩ := x
      simp only [List.map_cons, List.mem_cons] at h
      push_neg at h
      simp [dictInsert, Ne.symm h.1, ih h.2]

theorem dictGet_dictInsert {α : Type} (d : List (String × α)) (k k' : String) (v : α) :
    dictGet (dictInsert d k v) k' = if k = k' then some v else dictGet d k' := by
  induction d with
  | nil =>
      by_cases h : k = k' <;> simp [dictInsert, dictGet, h]
  | cons x rest ih =>
      obtain ⟨k0, v0⟩ := x
      by_cases h0 : k0 = k
      · subst h0
        by_cases h1 : k0 = k' <;> simp [dictInsert, dictGet, h1]
      · by_cases h1 : k0 = k'
        · subst h1
          simp [dictInsert, h0, dictGet, Ne.symm h0]
        · simp [dictInsert, h0, dictGet, h1, ih]

theorem dictInsert_keys {α : Type} (d : List (String × α)) (k : String) (v : α) :
    (dictInsert d k v).map Prod.fst =
      if k ∈ d.map Prod.fst then d.map Prod.fst else d.map Prod.fst ++ [k] := by
  induction d with
  | nil => simp [dictInsert]
  | cons x rest ih =>
      obtain ⟨k', v'⟩ := x
      by_cases h0 : k' = k
      · subst h0
        simp [dictInsert]
      · simp only [dictInsert, h0, if_false, List.map_cons, ih]
        by_cases h1 : k ∈ rest.map Prod.fst <;>
          simp [h1, List.mem_cons, Ne.symm h0]

theorem dictInsert_keys_nodup {α : Type} (d : List (String × α)) (k : String) (v : α)
    (h : (d.map Prod.fst).Nodup) : ((dictInsert d k v).map Prod.fst).Nodup := by
  rw [dictInsert_keys]
  by_cases h1 : k ∈ d.map Prod.fst
  · simpa [h1]
  · simp [h1, List.nodup_append, h]

theorem dictGet_some_mem {α : Type} {d : List (String × α)} {k : String} {v : α}
    (h : dictGet d k = some v) : (k, v) ∈ d := by
  induction d with
  | nil => simp [dictGet] at h
  | cons x rest ih =>
      obtain ⟨k', v'⟩ := x
      by_cases h0 : k' = k
      · subst h0
        simp [dictGet] at h
        simp [h]
      · simp [dictGet, h0] at h
        simp [ih h]

theorem dictGet_none_iff {α : Type} (d : List (String × α)) (k : String) :
    dictGet d k = none ↔ k ∉ d.map Prod.fst := by
  induction d with
  | nil => simp [dictGet]
  | cons x rest ih =>
      obtain ⟨k', v'⟩ := x
      by_cases h0 : k' = k
      · subst h0
        simp [dictGet]
      · simp [dictGet, h0, ih, Ne.symm h0]

theorem dictGet_of_mem_nodup {α : Type} {d : List (String × α)} {k : String} {v : α}
    (hnd : (d.map Prod.fst).Nodup) (hm : (k, v) ∈ d) : dictGet d k = some v := by
  induction d with
  | nil => simp at hm
  | cons x rest ih =>
      obtain ⟨k', v'⟩ := x
      simp only [List.map_cons, List.nodup_cons] at hnd
      rcases List.mem_cons.mp hm with h | h
      · rw [Prod.ext_iff] at h
        obtain ⟨hk, hv⟩ := h
        subst hk
        subst hv
        simp [dictGet]
      · have hk : k ≠ k' := by
          intro he
          subst he
          exact hnd.1 (List.mem_map_of_mem Prod.fst h)
        simp [dictGet, Ne.symm hk, ih hnd.2 h]

theorem dictGet_perm {α : Type} {d₁ d₂ : List (String × α)} (hp : d₁.Perm d₂)
    (hnd : (d₁.map Prod.fst).Nodup) (k : String) : dictGet d₁ k = dictGet d₂ k := by
  have hnd₂ : (d₂.map Prod.fst).Nodup := ((hp.map Prod.fst).nodup_iff).mp hnd
  cases h : dictGet d₁ k with
  | some v =>
      exact (dictGet_of_mem_nodup hnd₂ (hp.mem_iff.mp (dictGet_some_mem h))).symm
  | none =>
      have : k ∉ d₂.map Prod.fst := fun hm =>
        (dictGet_none_iff d₁ k).mp h ((hp.map Prod.fst).mem_iff.mpr hm)
      exact ((dictGet_none_iff d₂ k).mpr this).symm

/-! ## Lemmas: the directory child loop -/


theorem buildNode_isSome_of_keep (e : FSEntry) (n : String) (h : keepEntry e = true) :
    ∃ t, buildNode e n = some t := by
  cases e with
  | file content perms =>
      exact ⟨.file n (fileChecksum content) perms, by simp [buildNode]⟩
  | dir perms listing =>
      exact ⟨buildDir perms listing n, by simp [buildNode]⟩
  | symlink target perms k =>
      exact ⟨.symlink n (symlinkChecksum target) perms, by simp [buildNode]⟩
  | other => simp [keepEntry, FSEntry.isfile, FSEntry.isdir] at h

theorem buildChildren_eq_buildKept (l : List (String × FSEntry))
    (acc : List (String × TreeNode))
    (hnodup : (l.map Prod.fst).Nodup)
    (hdisj : ∀ k ∈ l.map Prod.fst, k ∉ acc.map Prod.fst) :
    buildChildren l acc = acc ++ buildKept l := by
  induction l generalizing acc with
  | nil => simp [buildChildren, buildKept]
  | cons x rest ih =>
      obtain ⟨n, e⟩ := x
      simp only [List.map_cons, List.nodup_cons] at hnodup
      by_cases hk : keepEntry e = true
      · obtain ⟨t, ht⟩ := buildNode_isSome_of_keep e n hk
        have hcond : ¬ (¬ e.isfile = true ∧ ¬ e.isdir = true) := by
          simp only [keepEntry, Bool.or_eq_true] at hk
          tauto
        rw [buildChildren]
        simp only [hcond, if_false, ht]
        rw [dictInsert_fresh acc n t (hdisj n (by simp))]
        have hdisj' : ∀ k ∈ rest.map Prod.fst, k ∉ (acc ++ [(n, t)]).map Prod.fst := by
          intro k hkm
          simp only [List.map_append, List.mem_append]
          push_neg
          refine ⟨hdisj k (by simp [hkm]), ?_⟩
          simp only [List.map_cons, List.map_nil, List.mem_singleton]
          intro hcon
          exact hnodup.1 (hcon ▸ hkm)
        rw [ih _ hnodup.2 hdisj']
        simp only [buildKept, List.filter_cons, hk, if_true, List.filterMap_cons, ht,
          Option.map_some]
        simp [List.append_assoc, buildKept]
      · have hcond : (¬ e.isfile = true ∧ ¬ e.isdir = true) := by
          simp only [keepEntry, Bool.or_eq_true] at hk
          tauto
        rw [buildChildren]
        simp only [hcond, if_true]
        have hdisj' : ∀ k ∈ rest.map Prod.fst, k ∉ acc.map Prod.fst := by
          intro k hkm
          exact hdisj k (by simp [hkm])
        rw [ih _ hnodup.2 hdisj']
        simp [buildKept, List.filter_cons, hk]

theorem buildDir_def (perms : Nat) (listing : List (String × FSEntry)) (name : String) :
    buildDir perms listing name =
      .dir name (dirChecksum (buildChildren listing [])) perms (buildChildren listing []) := by
  rw [buildDir]

theorem buildKept_keys_sublist (l : List (String × FSEntry)) :
    List.Sublist ((buildKept l).map Prod.fst) (l.map Prod.fst) := by
  have h1 : ∀ m : List (String × FSEntry),
      List.Sublist
        ((m.filterMap (fun p => (buildNode p.2 p.1).map (fun t => (p.1, t)))).map Prod.fst)
        (m.map Prod.fst) := by
    intro m
    induction m with
    | nil => simp
    | cons x rest ih =>
        cases hb : buildNode x.2 x.1 with
        | none => simpa [List.filterMap_cons, hb] using ih.cons x.1
        | some t => simpa [List.filterMap_cons, hb] using ih.cons₂ x.1
  exact (h1 _).trans ((List.filter_sublist _).map Prod.fst)

theorem buildKept_keys_nodup (l : List (String × FSEntry))
    (h : (l.map Prod.fst).Nodup) : ((buildKept l).map Prod.fst).Nodup :=
  (buildKept_keys_sublist l).nodup h

/-! ## Lemmas: the checksum projection of a children map

`childChecksums` (and hence the directory checksum) depends only on each
child's name and checksum, not on its permissions or deeper structure. -/


theorem projChildren_keys (ch : List (String × TreeNode)) :
    (projChildren ch).map Prod.fst = ch.map Prod.fst := by
  simp [projChildren, List.map_map, Function.comp]

theorem dictGet_projChildren (ch : List (String × TreeNode)) (k : String) :
    dictGet (projChildren ch) k = (dictGet ch k).map TreeNode.checksum := by
  induction ch with
  | nil => simp [projChildren, dictGet]
  | cons x rest ih =>
      obtain ⟨k0, t⟩ := x
      simp only [projChildren, List.map_cons] at ih ⊢
      by_cases h : k0 = k <;> simp [dictGet, h, ih]

theorem childChecksums_proj_congr {ch₁ ch₂ : List (String × TreeNode)}
    (h : projChildren ch₁ = projChildren ch₂) :
    childChecksums ch₁ = childChecksums ch₂ := by
  unfold childChecksums
  have hkeys : ch₁.map Prod.fst = ch₂.map Prod.fst := by
    rw [← projChildren_keys ch₁, ← projChildren_keys ch₂, h]
  rw [hkeys]
  exact List.filterMap_congr (fun n _ => by
    rw [← dictGet_projChildren, ← dictGet_projChildren, h])

theorem dirChecksum_proj_congr {ch₁ ch₂ : List (String × TreeNode)}
    (h : projChildren ch₁ = projChildren ch₂) : dirChecksum ch₁ = dirChecksum ch₂ := by
  unfold dirChecksum
  rw [childChecksums_proj_congr h]

theorem childChecksums_perm {ch₁ ch₂ : List (String × TreeNode)} (hp : ch₁.Perm ch₂)
    (hnd : (ch₁.map Prod.fst).Nodup) : childChecksums ch₁ = childChecksums ch₂ := by
  unfold childChecksums
  have hsort : List.insertionSort (· ≤ ·) (ch₁.map Prod.fst) =
      List.insertionSort (· ≤ ·) (ch₂.map Prod.fst) := by
    refine List.eq_of_perm_of_sorted ?_ (List.sorted_insertionSort _ _)
      (List.sorted_insertionSort _ _)
    exact (List.perm_insertionSort _ _).trans ((hp.map Prod.fst).trans
      (List.perm_insertionSort _ _).symm)
  rw [hsort]
  exact List.filterMap_congr (fun n _ => by rw [dictGet_perm hp hnd n])

theorem dirChecksum_perm {ch₁ ch₂ : List (String × TreeNode)} (hp : ch₁.Perm ch₂)
    (hnd : (ch₁.map Prod.fst).Nodup) : dirChecksum ch₁ = dirChecksum ch₂ := by
  unfold dirChecksum
  rw [childChecksums_perm hp hnd]

/-! ## Lemmas: sorted children pairs -/


theorem map_fst_orderedInsert (x : String × TreeNode) (l : List (String × TreeNode)) :
    (List.orderedInsert (fun a b => a.1 ≤ b.1) x l).map Prod.fst =
      List.orderedInsert (· ≤ ·) x.1 (l.map Prod.fst) := by
  induction l with
  | nil => simp [List.orderedInsert]
  | cons y rest ih =>
      by_cases h : x.1 ≤ y.1
      · simp only [List.orderedInsert, if_pos h, List.map_cons]
      · simp only [List.orderedInsert, if_neg h, List.map_cons]
        rw [ih]

theorem map_fst_sortByName (ch : List (String × TreeNode)) :
    (sortByName ch).map Prod.fst = List.insertionSort (· ≤ ·) (ch.map Prod.fst) := by
  unfold sortByName
  induction ch with
  | nil => simp [List.insertionSort]
  | cons x rest ih =>
      simp only [List.insertionSort, List.map_cons]
      rw [map_fst_orderedInsert, ih]

theorem assoc_map_checksum_eq_filterMap (ch : List (String × TreeNode))
    (hnd : (ch.map Prod.fst).Nodup) :
    ∀ l : List (String × TreeNode), (∀ p ∈ l, p ∈ ch) →
      l.map (fun p => p.2.checksum) =
        (l.map Prod.fst).filterMap (fun n => (dictGet ch n).map TreeNode.checksum) := by
  intro l hmem
  induction l with
  | nil => simp
  | cons p rest ih =>
      have hp : dictGet ch p.1 = some p.2 :=
        dictGet_of_mem_nodup hnd (by simpa using hmem p (by simp))
      simp [List.filterMap_cons, hp, ih (fun q hq => hmem q (by simp [hq]))]

theorem childChecksums_eq_sortByName (ch : List (String × TreeNode))
    (hnd : (ch.map Prod.fst).Nodup) :
    childChecksums ch = (sortByName ch).map (fun p => p.2.checksum) := by
  rw [assoc_map_checksum_eq_filterMap ch hnd (sortByName ch)
    (fun p hp => (List.perm_insertionSort _ ch).mem_iff.mp hp)]
  rw [map_fst_sortByName]
  rfl

theorem buildChildren_nil_eq (l : List (String × FSEntry))
    (hnd : (l.map Prod.fst).Nodup) : buildChildren l [] = buildKept l := by
  rw [buildChildren_eq_buildKept l [] hnd (by simp)]
  simp

/-! ## Claim C1 -/

/-- **C1.**  The checksum `DirectoryNode.build_node` computes equals the
xxh64 digest of the concatenation of the children's digests taken in
ascending lexicographic order of child name, and for any two listing orders
of the same child set the directory checksum is the same. -/
theorem c1_directory_checksum_sorted_and_order_independent
    (perms : Nat) (listing : List (String × FSEntry)) (name : String)
    (hnd : (listing.map Prod.fst).Nodup) :
    ((buildDir perms listing name).checksum =
      xxh64Hex (((sortByName (buildChildren listing [])).map
        (fun p => strBytes p.2.checksum)).flatten))
    ∧ ∀ listing₂ : List (String × FSEntry), listing.Perm listing₂ →
        (buildDir perms listing name).checksum = (buildDir perms listing₂ name).checksum := by
  constructor
  · rw [buildDir_def]
    simp only [TreeNode.checksum]
    rw [dirChecksum_eq]
    rw [buildChildren_nil_eq listing hnd]
    rw [childChecksums_eq_sortByName _ (buildKept_keys_nodup listing hnd)]
    rw [List.map_map]
    rfl
  · intro listing₂ hp
    have hnd₂ : (listing₂.map Prod.fst).Nodup := ((hp.map Prod.fst).nodup_iff).mp hnd
    rw [buildDir_def, buildDir_def]
    simp only [TreeNode.checksum]
    rw [buildChildren_nil_eq listing hnd, buildChildren_nil_eq listing₂ hnd₂]
    exact dirChecksum_perm ((hp.filter _).filterMap _) (buildKept_keys_nodup listing hnd)

/-- Witness for C1 at a concrete two-child directory listed in the two
possible orders. -/
theorem c1_witness :
    ((([("b", FSEntry.file [1] 6), ("a", FSEntry.file [2] 5)] :
        List (String × FSEntry)).map Prod.fst).Nodup)
    ∧ (buildDir 7 [("b", FSEntry.file [1] 6), ("a", FSEntry.file [2] 5)] "").checksum =
        (buildDir 7 [("a", FSEntry.file [2] 5), ("b", FSEntry.file [1] 6)] "").checksum := by
  refine ⟨by decide, ?_⟩
  exact (c1_directory_checksum_sorted_and_order_independent 7
    [("b", FSEntry.file [1] 6), ("a", FSEntry.file [2] 5)] "" (by decide)).2
    [("a", FSEntry.file [2] 5), ("b", FSEntry.file [1] 6)]
    (List.Perm.swap ("a", FSEntry.file [2] 5) ("b", FSEntry.file [1] 6) [])

/-! ## Claim C2: permission (and time) independence -/


theorem isfile_stripPerms (e : FSEntry) : (stripPerms e).isfile = e.isfile := by
  cases e with
  | file c p => simp [stripPerms, FSEntry.isfile]
  | dir p l => simp [stripPerms, FSEntry.isfile]
  | symlink t p k => cases k <;> simp [stripPerms, FSEntry.isfile]
  | other => simp [stripPerms, FSEntry.isfile]

theorem isdir_stripPerms (e : FSEntry) : (stripPerms e).isdir = e.isdir := by
  cases e with
  | file c p => simp [stripPerms, FSEntry.isdir]
  | dir p l => simp [stripPerms, FSEntry.isdir]
  | symlink t p k => cases k <;> simp [stripPerms, FSEntry.isdir]
  | other => simp [stripPerms, FSEntry.isdir]

theorem projChildren_dictInsert (acc : List (String × TreeNode)) (n : String) (t : TreeNode) :
    projChildren (dictInsert acc n t) = dictInsert (projChildren acc) n t.checksum := by
  induction acc with
  | nil => simp [projChildren, dictInsert]
  | cons x rest ih =>
      obtain ⟨k0, t0⟩ := x
      simp only [projChildren, List.map_cons] at ih ⊢
      by_cases h : k0 = n <;> simp [dictInsert, h, ih]

mutual

theorem buildNode_checksum_stripPerms (e : FSEntry) (name : String) :
    (buildNode (stripPerms e) name).map TreeNode.checksum =
      (buildNode e name).map TreeNode.checksum := by
  cases e with
  | file c p => simp [stripPerms, buildNode, TreeNode.checksum]
  | symlink t p k => simp [stripPerms, buildNode, TreeNode.checksum]
  | other => simp [stripPerms, buildNode]
  | dir p l =>
      simp only [stripPerms, buildNode, buildDir_def, Option.map_some, TreeNode.checksum]
      exact congrArg Option.some
        (dirChecksum_proj_congr (buildChildren_proj_stripPerms l [] [] rfl))
termination_by sizeOf e
decreasing_by
  simp

theorem buildChildren_proj_stripPerms (l : List (String × FSEntry))
    (acc₁ acc₂ : List (String × TreeNode))
    (hacc : projChildren acc₁ = projChildren acc₂) :
    projChildren (buildChildren (stripPermsList l) acc₁) =
      projChildren (buildChildren l acc₂) := by
  match l with
  | [] =>
      simp only [stripPermsList, buildChildren]
      exact hacc
  | (n, e) :: rest =>
      simp only [stripPermsList]
      rw [buildChildren, buildChildren]
      by_cases hk : keepEntry e = true
      · have hcond : ¬ (¬ e.isfile = true ∧ ¬ e.isdir = true) := by
          simp only [keepEntry, Bool.or_eq_true] at hk
          tauto
        have hcond' : ¬ (¬ (stripPerms e).isfile = true ∧ ¬ (stripPerms e).isdir = true) := by
          rw [isfile_stripPerms, isdir_stripPerms]
          exact hcond
        obtain ⟨t₂, ht₂⟩ := buildNode_isSome_of_keep e n hk
        obtain ⟨t₁, ht₁⟩ := buildNode_isSome_of_keep (stripPerms e) n
          (by simp [keepEntry, isfile_stripPerms, isdir_stripPerms]
              simp only [keepEntry, Bool.or_eq_true] at hk
              exact hk)
        have hcs : t₁.checksum = t₂.checksum := by
          have h := buildNode_checksum_stripPerms e n
          rw [ht₁, ht₂] at h
          simpa using h
        simp only [hcond, hcond', if_false, ht₁, ht₂]
        exact buildChildren_proj_stripPerms rest _ _ (by
          rw [projChildren_dictInsert, projChildren_dictInsert, hacc, hcs])
      · have hcond : (¬ e.isfile = true ∧ ¬ e.isdir = true) := by
          simp only [keepEntry, Bool.or_eq_true] at hk
          tauto
        have hcond' : ((¬ (stripPerms e).isfile = true ∧ ¬ (stripPerms e).isdir = true)) := by
          rw [isfile_stripPerms, isdir_stripPerms]
          exact hcond
        simp only [hcond, hcond', if_true]
        exact buildChildren_proj_stripPerms rest _ _ hacc
termination_by sizeOf l
decreasing_by
  all_goals simp
  all_goals omega

end

theorem stripPermsList_append (a b : List (String × FSEntry)) :
    stripPermsList (a ++ b) = stripPermsList a ++ stripPermsList b := by
  induction a with
  | nil => simp [stripPermsList]
  | cons x rest ih =>
      obtain ⟨n, e⟩ := x
      simp [stripPermsList, ih]

/-- **C2.**  A node's checksum is independent of permissions and of the
capture time: construction on inputs that differ only in permission bits
yields equal checksums; in particular changing one file's permission bits
changes neither its own checksum nor its parent directory's checksum; and
the root checksum recorded by a checkpoint does not depend on the capture
time. -/
theorem c2_permission_and_time_independence :
    (∀ e₁ e₂ : FSEntry, ∀ name : String, stripPerms e₁ = stripPerms e₂ →
      (buildNode e₁ name).map TreeNode.checksum = (buildNode e₂ name).map TreeNode.checksum)
    ∧ (∀ pre post : List (String × FSEntry), ∀ content : List Nat,
        ∀ p₁ p₂ dperm : Nat, ∀ nm fname : String,
        (buildNode (.file content p₁) fname).map TreeNode.checksum =
          (buildNode (.file content p₂) fname).map TreeNode.checksum
        ∧ (buildDir dperm (pre ++ (fname, .file content p₁) :: post) nm).checksum =
            (buildDir dperm (pre ++ (fname, .file content p₂) :: post) nm).checksum)
    ∧ (∀ root : TreeNode, ∀ t₁ t₂ : Datetime, ∀ nm : Option String,
        ∀ cp₁ cp₂ : Checkpoint, Checkpoint.make root t₁ nm = some cp₁ →
        Checkpoint.make root t₂ nm = some cp₂ → cp₁.root.checksum = cp₂.root.checksum) := by
  have hgen : ∀ e₁ e₂ : FSEntry, ∀ name : String, stripPerms e₁ = stripPerms e₂ →
      (buildNode e₁ name).map TreeNode.checksum = (buildNode e₂ name).map TreeNode.checksum := by
    intro e₁ e₂ name h
    rw [← buildNode_checksum_stripPerms e₁ name, h, buildNode_checksum_stripPerms e₂ name]
  refine ⟨hgen, ?_, ?_⟩
  · intro pre post content p₁ p₂ dperm nm fname
    constructor
    · exact hgen _ _ fname (by simp [stripPerms])
    · have h := hgen (.dir dperm (pre ++ (fname, .file content p₁) :: post))
        (.dir dperm (pre ++ (fname, .file content p₂) :: post)) nm
        (by simp [stripPerms, stripPermsList_append, stripPermsList])
      simp only [buildNode] at h
      simpa using h
  · intro root t₁ t₂ nm cp₁ cp₂ h₁ h₂
    cases nm with
    | none =>
        simp [Checkpoint.make] at h₁ h₂
        rw [← h₁, ← h₂]
    | some n =>
        by_cases hr : reMatchName n = true
        · simp [Checkpoint.make, hr] at h₁ h₂
          rw [← h₁, ← h₂]
        · simp [Checkpoint.make, hr] at h₁

/-- Witness for C2 at a concrete file whose permission bits change. -/
theorem c2_witness :
    stripPerms (.file [104] 420) = stripPerms (.file [104] 493)
    ∧ (buildNode (.file [104] 420) "f").map TreeNode.checksum =
        (buildNode (.file [104] 493) "f").map TreeNode.checksum := by
  refine ⟨by simp [stripPerms], ?_⟩
  exact c2_permission_and_time_independence.1 (.file [104] 420) (.file [104] 493) "f"
    (by simp [stripPerms])

/-! ## Claim C3: the `to_dict`/`from_dict` round trip -/


theorem nodupKeys_iff (l : List String) : nodupKeys l = true ↔ l.Nodup := by
  induction l with
  | nil => simp [nodupKeys]
  | cons k rest ih => simp [nodupKeys, ih]


theorem toDict_name (t : TreeNode) : (toDict t).name = t.name := by
  cases t <;> simp [toDict, NodeDict.name, TreeNode.name]

mutual

theorem fromDict_toDict (t : TreeNode) (h : wfNode t = true) :
    fromDict (toDict t) = Except.ok t := by
  match t with
  | .file n c p => simp [toDict, fromDict]
  | .symlink n c p => simp [toDict, fromDict]
  | .dir n c p children =>
      simp only [wfNode, Bool.and_eq_true] at h
      have hrec := fromDictChildren_toDict children [] h.2
        (by simpa using (nodupKeys_iff _).mp h.1)
      simp only [toDict, fromDict]
      rw [hrec]
      simp
termination_by sizeOf t
decreasing_by
  simp

theorem fromDictChildren_toDict (ch : List (String × TreeNode))
    (acc : List (String × TreeNode)) (hwf : wfChildren ch = true)
    (hnd : ((acc ++ ch).map Prod.fst).Nodup) :
    fromDictChildren (toDictChildren ch) acc = Except.ok (acc ++ ch) := by
  match ch with
  | [] => simp [toDictChildren, fromDictChildren]
  | (k, t) :: rest =>
      simp only [wfChildren, Bool.and_eq_true, beq_iff_eq] at hwf
      obtain ⟨⟨hname, hwt⟩, hwrest⟩ := hwf
      rw [toDictChildren, fromDictChildren]
      rw [fromDict_toDict t hwt]
      rw [toDict_name, hname]
      show fromDictChildren (toDictChildren rest) (dictInsert acc k t) =
        Except.ok (acc ++ (k, t) :: rest)
      have hfresh : k ∉ acc.map Prod.fst := by
        simp only [List.map_append, List.map_cons] at hnd
        have hd := (List.nodup_append.mp hnd).2.2
        intro hmem
        exact (hd hmem) (by simp)
      rw [dictInsert_fresh acc k t hfresh]
      have hnd' : (((acc ++ [(k, t)]) ++ rest).map Prod.fst).Nodup := by
        rw [List.append_assoc]
        simpa using hnd
      rw [fromDictChildren_toDict rest (acc ++ [(k, t)]) hwrest hnd']
      simp
termination_by sizeOf ch
decreasing_by
  all_goals simp
  all_goals omega

end

/-- **C3.**  For every (well-formed) tree node, `from_dict (to_dict n)`
reproduces the node exactly — in particular its checksum, its permissions,
and the child-name-to-child mapping at every level. -/
theorem c3_serialization_roundtrip (t : TreeNode) (h : wfNode t = true) :
    fromDict (toDict t) = Except.ok t :=
  fromDict_toDict t h

/-- Witness for C3 at a concrete two-level tree. -/
theorem c3_witness :
    wfNode (.dir "" "c0" 7 [("a", .file "a" "c1" 6), ("s", .symlink "s" "c2" 5)]) = true
    ∧ fromDict (toDict (.dir "" "c0" 7
        [("a", .file "a" "c1" 6), ("s", .symlink "s" "c2" 5)])) =
      Except.ok (.dir "" "c0" 7 [("a", .file "a" "c1" 6), ("s", .symlink "s" "c2" 5)]) := by
  have hwf : wfNode (.dir "" "c0" 7
      [("a", .file "a" "c1" 6), ("s", .symlink "s" "c2" 5)]) = true := by
    simp [wfNode, wfChildren, nodupKeys, TreeNode.name]
  exact ⟨hwf, c3_serialization_roundtrip _ hwf⟩

/-! ## Claim C5: the traversal order of `Checkpoint.iter` -/


theorem flatten_pushChildren (children : List (String × TreeNode)) (q : String) :
    (((children.map (fun c => (c.2, pathJoin q c.1))).reverse.map
      (fun x => dfsRev x.1 x.2)).flatten) = dfsRevChildren children q := by
  induction children with
  | nil => simp [dfsRevChildren]
  | cons x rest ih =>
      obtain ⟨cn, ct⟩ := x
      simp only [List.map_cons, List.reverse_cons, List.map_append, List.flatten_append]
      rw [ih]
      simp [dfsRevChildren]

theorem dfsRev_cons (t : TreeNode) (q : String) :
    dfsRev t q = (t, q) :: ((pushChildren t q).map (fun x => dfsRev x.1 x.2)).flatten := by
  cases t with
  | file n c p => simp [dfsRev, pushChildren]
  | symlink n c p => simp [dfsRev, pushChildren]
  | dir n c p children =>
      rw [dfsRev]
      simp only [pushChildren]
      rw [flatten_pushChildren]

theorem iterGo_eq_dfsRev (stack : List (TreeNode × String)) :
    iterGo stack = (stack.map (fun x => dfsRev x.1 x.2)).flatten := by
  induction stack using iterGo.induct with
  | case1 => simp [iterGo]
  | case2 n p rest ih =>
      rw [iterGo, ih]
      simp only [List.map_append, List.flatten_append, List.map_cons, List.flatten_cons]
      rw [dfsRev_cons]
      simp

/-- **C5 (amended).**  `iter()` yields exactly the depth-first, root-first
sequence of `(node, relative_path)` pairs in which the children of every
directory are visited in **reverse** insertion order (the reverse of the
original listing order). -/
theorem c5_iter_is_reverse_order_dfs (cp : Checkpoint) :
    cp.iterList = dfsRev cp.root "" := by
  rw [Checkpoint.iterList, iterGo_eq_dfsRev]
  simp

/-- **C5 (counterexample to the claim as stated).**  For a root directory
whose children were inserted in the order `a`, `b`, the iterator yields the
path sequence `["", "b", "a"]`, not the insertion-order sequence
`["", "a", "b"]`. -/
theorem c5_counterexample :
    (Checkpoint.iterList ⟨.dir "" "c0" 7
        [("a", .file "a" "ca" 6), ("b", .file "b" "cb" 5)], ⟨2024, 1, 2, 3, 4, 5, 0⟩,
        none⟩).map Prod.snd = ["", "b", "a"]
    ∧ (["", "b", "a"] : List String) ≠ ["", "a", "b"] := by
  constructor
  · rw [Checkpoint.iterList]
    simp [iterGo, pushChildren, pathJoin]
  · decide

/-! ## Claim C6: which directory entries are skipped -/

/-- **C6 (amended).**  During a directory build the entries skipped are
exactly those for which neither `os.path.isfile` nor `os.path.isdir` holds
(these predicates follow symlinks): unsupported kinds (devices, sockets,
pipes) **and** symlinks whose targets resolve to neither a file nor a
directory.  Every kept entry is built, and a symlink entry is always
classified as a SymlinkNode from its raw target — symlink-ness is tested
before file/directory-ness, so a symlink is never followed into recursion. -/
theorem c6_skip_policy_and_symlink_classification
    (listing : List (String × FSEntry)) (hnd : (listing.map Prod.fst).Nodup) :
    buildChildren listing [] =
      (listing.filter (fun p => p.2.isfile || p.2.isdir)).filterMap
        (fun p => (buildNode p.2 p.1).map (fun t => (p.1, t)))
    ∧ ∀ (tgt : String) (pm : Nat) (k : TargetKind) (nm : String),
        buildNode (.symlink tgt pm k) nm = some (.symlink nm (symlinkChecksum tgt) pm) := by
  constructor
  · rw [buildChildren_nil_eq listing hnd]
    rfl
  · intro tgt pm k nm
    simp [buildNode]

/-- Witness for C6 (amended) at a concrete listing containing a regular
file, a device-like entry, a resolving symlink and a broken symlink. -/
theorem c6_witness :
    (([("f", FSEntry.file [1] 6), ("x", FSEntry.other),
        ("s", FSEntry.symlink "t" 5 .tfile), ("b", FSEntry.symlink "u" 4 .tnone)].map
          (Prod.fst (α := String) (β := FSEntry))).Nodup)
    ∧ buildChildren [("f", FSEntry.file [1] 6), ("x", FSEntry.other),
        ("s", FSEntry.symlink "t" 5 .tfile), ("b", FSEntry.symlink "u" 4 .tnone)] [] =
      ([("f", FSEntry.file [1] 6), ("x", FSEntry.other),
        ("s", FSEntry.symlink "t" 5 .tfile), ("b", FSEntry.symlink "u" 4 .tnone)].filter
          (fun p => p.2.isfile || p.2.isdir)).filterMap
        (fun p => (buildNode p.2 p.1).map (fun t => (p.1, t))) := by
  refine ⟨by decide, ?_⟩
  exact (c6_skip_policy_and_symlink_classification _ (by decide)).1

/-- **C6 (counterexample to the claim as stated).**  A directory whose only
child is a symlink with a non-resolving target builds to an **empty**
children map: the symlink child is skipped, not classified as a
SymlinkNode. -/
theorem c6_counterexample :
    buildChildren [("s", FSEntry.symlink "t" 5 .tnone)] [] = []
    ∧ FSEntry.islink (.symlink "t" 5 .tnone) = true := by
  constructor
  · rw [buildChildren, buildChildren]
    simp [FSEntry.isfile, FSEntry.isdir]
  · rfl

/-! ## Claim C7: the unknown-discriminator error -/

/-- **C7 (the code's actual behaviour).**  On a serialized node whose
discriminator is `"banana"` and whose name is `"foo"`, `from_dict` raises
`TypeError('Type foo does not exist.')`: the parse aborts with an error, but
the message interpolates the node's **name**, not the unrecognized
discriminator tag. -/
theorem c7_unknown_type_error_reports_name :
    fromDict (.mk "foo" "c" 0 "banana" none) = .error "Type foo does not exist."
    ∧ "Type foo does not exist." ≠ "Type banana does not exist." := by
  constructor
  · rw [fromDict]
    simp
  · decide

/-! ## Claim C8: checkpoint name validation -/

/-- **C8 (counterexample to the claim as stated).**  `"a\n"` contains a
character outside `[a-zA-Z0-9_.-]`, yet checkpoint construction succeeds:
Python's `re.match` lets `$` match just before a trailing newline. -/
theorem c8_counterexample :
    (Checkpoint.make (.file "f" "c" 0) ⟨2024, 1, 2, 3, 4, 5, 0⟩ (some "a\n")).isSome = true
    ∧ ¬ (("a\n" : String).data ≠ [] ∧ ("a\n" : String).data.all nameClassChar = true) := by
  constructor
  · decide
  · decide

/-- **C8 (amended).**  Construction always succeeds when no name is
supplied; with a supplied name it succeeds exactly when every character is
in `[a-zA-Z0-9_.-]` (and the name is nonempty), **or** the name is such a
conforming nonempty string followed by one trailing newline (an artifact of
`re.match` + `$`). -/
theorem c8_name_validation (root : TreeNode) (time : Datetime) :
    (Checkpoint.make root time none).isSome = true
    ∧ ∀ n : String, (Checkpoint.make root time (some n)).isSome = true ↔
        ((n.data ≠ [] ∧ n.data.all nameClassChar = true) ∨
         (n.data.dropLast ≠ [] ∧ n.data.dropLast.all nameClassChar = true ∧
           n.data.getLast? = some '\n')) := by
  constructor
  · simp [Checkpoint.make]
  · intro n
    simp only [Checkpoint.make]
    by_cases h : reMatchName n = true
    · rw [if_pos h]
      simp only [Option.isSome_some, true_iff]
      simpa [reMatchName, List.isEmpty_iff, and_assoc] using h
    · rw [if_neg h]
      simp only [Option.isSome_none, Bool.false_eq_true, false_iff]
      intro hcon
      exact h (by simpa [reMatchName, List.isEmpty_iff, and_assoc] using hcon)

/-! ## Claim C9: the time field written by `to_json` -/

/-- **C9 (amended).**  `to_json` writes the time as the plain
`datetime.isoformat()` string: 26 characters with microsecond precision when
the microsecond field is nonzero, but only the 19-character second-precision
form when the capture time falls on an exact second — no `.000000` padding
is applied in `to_json`. -/
theorem c9_to_json_time_field (cp : Checkpoint) :
    cp.toJson.getField "time" = some (.str cp.time.isoformat)
    ∧ (cp.time.isoformat).length = (if cp.time.microsecond = 0 then 19 else 26) := by
  constructor
  · simp [Checkpoint.toJson, Json.getField, dictGet]
  · by_cases h : cp.time.microsecond = 0 <;>
      simp [Datetime.isoformat, h, String.length, pad4, pad2, pad6]

/-- **C9 (counterexample to the claim as stated).**  A checkpoint whose
capture time falls on an exact second is written with the bare 19-character
time string, not the microsecond-precision form. -/
theorem c9_counterexample :
    (Checkpoint.toJson ⟨.file "" "c" 0, ⟨2024, 1, 2, 3, 4, 5, 0⟩, none⟩).getField "time" =
      some (.str "2024-01-02T03:04:05")
    ∧ ("2024-01-02T03:04:05" : String).length ≠ 26 := by
  constructor
  · simp only [Checkpoint.toJson, Json.getField]
    rw [show Datetime.isoformat ⟨2024, 1, 2, 3, 4, 5, 0⟩ = "2024-01-02T03:04:05" from rfl]
    simp [dictGet]
  · decide

/-! ## Claim C10: duplicate names in a serialized directory -/

theorem fromDictChildren_spec (cs : List NodeDict) (acc : List (String × TreeNode))
    (hok : ∀ c ∈ cs, ∃ t, fromDict c = Except.ok t)
    (hnd : (acc.map Prod.fst).Nodup) :
    ∃ ch, fromDictChildren cs acc = Except.ok ch ∧ (ch.map Prod.fst).Nodup ∧
      ∀ k, dictGet ch k =
        (match (cs.filter (fun c => c.name == k)).getLast? with
         | some c => (fromDict c).toOption
         | none => dictGet acc k) := by
  induction cs generalizing acc with
  | nil =>
      refine ⟨acc, by simp [fromDictChildren], hnd, ?_⟩
      intro k
      simp
  | cons c rest ih =>
      obtain ⟨t, ht⟩ := hok c (by simp)
      obtain ⟨ch, hch, hchnd, hget⟩ := ih (dictInsert acc c.name t)
        (fun c' hc' => hok c' (by simp [hc']))
        (dictInsert_keys_nodup acc c.name t hnd)
      refine ⟨ch, ?_, hchnd, ?_⟩
      · rw [fromDictChildren, ht]
        exact hch
      · intro k
        rw [hget k]
        by_cases hk : c.name = k
        · simp only [List.filter_cons, hk, beq_self_eq_true, if_true]
          cases hl : (rest.filter (fun c' => c'.name == k)).getLast? with
          | some c' => simp [List.getLast?_cons, hl]
          | none =>
              simp only [List.getLast?_cons, hl, Option.getD_none]
              rw [dictGet_dictInsert]
              simp [hk, ht, Except.toOption]
        · have hbeq : (c.name == k) = false := by simpa using hk
          simp only [List.filter_cons, hbeq, Bool.false_eq_true, if_false]
          cases hl : (rest.filter (fun c' => c'.name == k)).getLast? with
          | some c' => simp [hl]
          | none =>
              simp only [hl]
              rw [dictGet_dictInsert]
              simp [hk]

/-- **C10.**  When a serialized directory's children list contains several
entries sharing one name, `DirectoryNode.from_dict` raises no error, the
resulting children dict has unique keys, and under each duplicated name it
stores exactly the child built from the **last** such entry in list
order. -/
theorem c10_duplicate_children_last_wins (name checksum : String) (perms : Nat)
    (cs : List NodeDict) (hok : ∀ c ∈ cs, ∃ t, fromDict c = Except.ok t) :
    ∃ ch, fromDict (.mk name checksum perms "directory" (some cs)) =
        Except.ok (.dir name checksum perms ch)
      ∧ (ch.map Prod.fst).Nodup
      ∧ ∀ k c, (cs.filter (fun c' => c'.name == k)).getLast? = some c →
          dictGet ch k = (fromDict c).toOption := by
  obtain ⟨ch, hch, hnd, hget⟩ := fromDictChildren_spec cs [] hok (by simp)
  refine ⟨ch, ?_, hnd, ?_⟩
  · rw [fromDict]
    simp [hch]
  · intro k c hc
    rw [hget k, hc]

/-- Witness for C10 at a children list carrying two entries named `"a"`. -/
theorem c10_witness :
    (∀ c ∈ [NodeDict.mk "a" "c1" 1 "file" none, NodeDict.mk "a" "c2" 2 "file" none],
      ∃ t, fromDict c = Except.ok t)
    ∧ ∃ ch, fromDict (.mk "d" "c0" 7 "directory"
          (some [NodeDict.mk "a" "c1" 1 "file" none, NodeDict.mk "a" "c2" 2 "file" none])) =
        Except.ok (.dir "d" "c0" 7 ch)
      ∧ (ch.map Prod.fst).Nodup
      ∧ ∀ k c, (([NodeDict.mk "a" "c1" 1 "file" none,
          NodeDict.mk "a" "c2" 2 "file" none].filter
            (fun c' => c'.name == k)).getLast? = some c) →
          dictGet ch k = (fromDict c).toOption := by
  have hok : ∀ c ∈ [NodeDict.mk "a" "c1" 1 "file" none, NodeDict.mk "a" "c2" 2 "file" none],
      ∃ t, fromDict c = Except.ok t := by
    intro c hc
    rcases List.mem_cons.mp hc with rfl | hc'
    · exact ⟨.file "a" "c1" 1, by rw [fromDict]; simp⟩
    · rcases List.mem_singleton.mp hc' with rfl
      exact ⟨.file "a" "c2" 2, by rw [fromDict]; simp⟩
  exact ⟨hok, c10_duplicate_children_last_wins "d" "c0" 7 _ hok⟩

/-! ## Claim C4: the checkpoint identifier round trip -/

theorem charOfNat_48_toNat : ∀ m, m < 10 → (Char.ofNat (48 + m)).toNat = 48 + m := by decide

theorem charOfNat_48_isDigit : ∀ m, m < 10 → (Char.ofNat (48 + m)).isDigit = true := by
  decide

theorem digit_toNat (n : Nat) : (digit n).toNat = 48 + n % 10 :=
  charOfNat_48_toNat (n % 10) (Nat.mod_lt n (by norm_num))

theorem digit_isDigit (n : Nat) : (digit n).isDigit = true :=
  charOfNat_48_isDigit (n % 10) (Nat.mod_lt n (by norm_num))

theorem digit_ne_underscore (n : Nat) : digit n ≠ '_' := by
  intro h
  have h1 := digit_toNat n
  rw [h] at h1
  rw [show ('_').toNat = 95 from rfl] at h1
  have h2 : n % 10 < 10 := Nat.mod_lt n (by norm_num)
  omega

theorem underscore_ne_digit (n : Nat) : ('_' : Char) ≠ digit n :=
  fun h => digit_ne_underscore n h.symm

theorem parseDigits_two (n : Nat) (h : n ≤ 99) :
    parseDigits [digit (n / 10), digit n] = some n := by
  unfold parseDigits
  rw [if_pos (by simp [digit_isDigit])]
  simp only [List.foldl_cons, List.foldl_nil, digit_toNat]
  congr 1
  omega

theorem parseDigits_four (n : Nat) (h : n ≤ 9999) :
    parseDigits [digit (n / 1000), digit (n / 100), digit (n / 10), digit n] = some n := by
  unfold parseDigits
  rw [if_pos (by simp [digit_isDigit])]
  simp only [List.foldl_cons, List.foldl_nil, digit_toNat]
  congr 1
  omega

theorem parseDigits_six (n : Nat) (h : n ≤ 999999) :
    parseDigits [digit (n / 100000), digit (n / 10000), digit (n / 1000), digit (n / 100),
      digit (n / 10), digit n] = some n := by
  unfold parseDigits
  rw [if_pos (by simp [digit_isDigit])]
  simp only [List.foldl_cons, List.foldl_nil, digit_toNat]
  congr 1
  omega


theorem datetimeFromIsoFormat_padded (y mo d h mi s u : Nat)
    (hy : y ≤ 9999) (hmo : mo ≤ 99) (hd : d ≤ 99) (hh : h ≤ 99) (hmi : mi ≤ 99)
    (hs : s ≤ 99) (hu : u ≤ 999999) :
    datetimeFromIsoFormat ⟨isoPaddedData ⟨y, mo, d, h, mi, s, u⟩⟩ =
      some ⟨y, mo, d, h, mi, s, u⟩ := by
  simp only [isoPaddedData, pad4, pad2, pad6, List.cons_append, List.nil_append]
  simp only [datetimeFromIsoFormat]
  rw [parseDigits_four y hy, parseDigits_two mo hmo, parseDigits_two d hd,
    parseDigits_two h hh, parseDigits_two mi hmi, parseDigits_two s hs,
    parseDigits_six u hu]


theorem underscore_not_mem_isoPaddedData (t : Datetime) : '_' ∉ isoPaddedData t := by
  have hd : ('_' : Char) ≠ '-' := by decide
  have ht : ('_' : Char) ≠ 'T' := by decide
  have hc : ('_' : Char) ≠ ':' := by decide
  have hp : ('_' : Char) ≠ '.' := by decide
  simp [isoPaddedData, pad4, pad2, pad6, underscore_ne_digit, hd, ht, hc, hp]

theorem isoformat_length (t : Datetime) :
    (t.isoformat).length = if t.microsecond = 0 then 19 else 26 := by
  by_cases h : t.microsecond = 0 <;>
    simp [Datetime.isoformat, String.length, h, pad4, pad2, pad6]

theorem padded_timestring_data (t : Datetime) :
    (if (t.isoformat).length = 19 then t.isoformat ++ ".000000" else t.isoformat).data =
      isoPaddedData t := by
  by_cases h : t.microsecond = 0
  · rw [if_pos (by rw [isoformat_length]; simp [h])]
    rw [String.data_append]
    simp [Datetime.isoformat, isoPaddedData, h]
    rfl
  · rw [if_neg (by rw [isoformat_length]; simp [h])]
    simp [Datetime.isoformat, isoPaddedData, h]

theorem splitOnceChar_append (sep : Char) (a b : List Char) (h : sep ∉ a) :
    splitOnceChar sep (a ++ sep :: b) = some (a, b) := by
  induction a with
  | nil => simp [splitOnceChar]
  | cons c rest ih =>
      simp only [List.mem_cons] at h
      push_neg at h
      simp [splitOnceChar, Ne.symm h.1, ih h.2]

theorem splitOnceChar_none (sep : Char) (a : List Char) (h : sep ∉ a) :
    splitOnceChar sep a = none := by
  induction a with
  | nil => simp [splitOnceChar]
  | cons c rest ih =>
      simp only [List.mem_cons] at h
      push_neg at h
      simp [splitOnceChar, Ne.symm h.1, ih h.2]

/-- **C4.**  For every checkpoint identity with a hex checksum, a valid
time, and an optional name matching `^[a-zA-Z0-9_.-]+$` (names may contain
underscores), `from_string (to_string m)` reproduces checksum, time (to
microsecond precision) and name. -/
theorem c4_identifier_roundtrip (m : CheckpointMeta)
    (hhex : m.checksum.data.all isHexDigitChar = true)
    (hv : m.time.valid)
    (hn : m.name = none ∨
      ∃ n, m.name = some n ∧ n.data ≠ [] ∧ n.data.all nameClassChar = true) :
    CheckpointMeta.fromString m.toString = some m := by
  obtain ⟨cs, t, nm⟩ := m
  obtain ⟨csd⟩ := cs
  simp only at hhex hv hn ⊢
  unfold Datetime.valid at hv
  obtain ⟨_, hy, _, hmo, _, hd, hh, hmi, hs, hu⟩ := hv
  have hcsnu : '_' ∉ csd := by
    intro hm
    have hall := List.all_eq_true.mp hhex _ hm
    rw [show isHexDigitChar '_' = false from rfl] at hall
    exact absurd hall (by decide)
  have htsnu : '_' ∉ isoPaddedData t := underscore_not_mem_isoPaddedData t
  have hparse : datetimeFromIsoFormat ⟨isoPaddedData t⟩ = some t := by
    have hp := datetimeFromIsoFormat_padded t.year t.month t.day t.hour t.minute t.second
      t.microsecond hy (by omega) (by omega) (by omega) (by omega) (by omega) hu
    simpa using hp
  rcases hn with hnone | ⟨n, hsome, hne, _⟩
  · subst hnone
    have hdata : (CheckpointMeta.toString ⟨⟨csd⟩, t, none⟩).data =
        csd ++ '_' :: isoPaddedData t := by
      simp only [CheckpointMeta.toString]
      rw [String.data_append, String.data_append, String.data_append]
      rw [padded_timestring_data]
      simp
    rw [CheckpointMeta.fromString]
    rw [hdata]
    rw [splitOnceChar_append '_' csd (isoPaddedData t) hcsnu]
    simp only [splitOnceChar_none '_' (isoPaddedData t) htsnu, hparse]
  · subst hsome
    obtain ⟨nd⟩ := n
    have hnd : nd ≠ [] := by simpa using hne
    have hnemp : (⟨nd⟩ : String) ≠ "" := by
      intro hcon
      exact hnd (congrArg String.data hcon)
    have hdata : (CheckpointMeta.toString ⟨⟨csd⟩, t, some ⟨nd⟩⟩).data =
        csd ++ '_' :: (isoPaddedData t ++ '_' :: nd) := by
      simp only [CheckpointMeta.toString]
      rw [if_neg hnemp]
      rw [String.data_append, String.data_append, String.data_append, String.data_append]
      rw [padded_timestring_data]
      simp
    rw [CheckpointMeta.fromString]
    rw [hdata]
    rw [splitOnceChar_append '_' csd (isoPaddedData t ++ '_' :: nd) hcsnu]
    simp only [splitOnceChar_append '_' (isoPaddedData t) nd htsnu, hparse]

/-- Witness for C4 at a concrete identity whose name contains an
underscore and whose time falls on an exact second. -/
theorem c4_witness :
    (("abc123" : String).data.all isHexDigitChar = true
      ∧ (Datetime.mk 2024 1 2 3 4 5 0).valid
      ∧ (("my_name" : String).data ≠ [] ∧
          ("my_name" : String).data.all nameClassChar = true))
    ∧ CheckpointMeta.fromString
        (CheckpointMeta.toString ⟨"abc123", ⟨2024, 1, 2, 3, 4, 5, 0⟩, some "my_name"⟩) =
      some ⟨"abc123", ⟨2024, 1, 2, 3, 4, 5, 0⟩, some "my_name"⟩ := by
  refine ⟨⟨by decide, by decide, by decide, by decide⟩, ?_⟩
  exact c4_identifier_roundtrip ⟨"abc123", ⟨2024, 1, 2, 3, 4, 5, 0⟩, some "my_name"⟩
    (by decide) (by decide)
    (Or.inr ⟨"my_name", rfl, by decide, by decide⟩)

end Bakker
